import Mathlib

/-!
Verification development for the PersistentChat plugin (src/main.py).
The definitions below are a shallow embedding of the history-injection
core: the marker scanner models the regex pattern for inline image
markers, and the functions model the steps of inject_chat_history,
_process_message_chain and the row-decoding loop.
-/

namespace PersistentChat

/-- A content part: one element of the content lists built by
inject_chat_history, either a text dict or an image_url dict. -/
inductive Part where
  | text (t : String)
  | image (url : String)
deriving DecidableEq

/-- The content field of a provider message: either a plain string or a
list of parts (the code checks isinstance(content, list)). -/
inductive Content where
  | str (s : String)
  | parts (l : List Part)
deriving DecidableEq

/-- One provider-context message dict with a role and a content field. -/
structure Msg where
  role : String
  content : Content
deriving DecidableEq

/-- One fetched row (sender_id, sender_name, message_text), as selected by
the query in inject_chat_history; sender_name = "" models NULL/empty. -/
structure Row where
  sender_id : String
  sender_name : String
  message_text : String
deriving DecidableEq

/-- Python str.strip character class used by the source: ASCII whitespace. -/
def isPySpace (c : Char) : Bool :=
  c = ' ' || c = '\t' || c = '\n' || c = '\r' || c = '\x0b' || c = '\x0c'

/-- Model of Python str.strip on the underlying character list. -/
def stripChars (l : List Char) : List Char :=
  ((l.dropWhile isPySpace).reverse.dropWhile isPySpace).reverse

/-- Model of Python str.strip. -/
def pyStrip (s : String) : String :=
  String.mk (stripChars s.data)

/-- Model of Python " ".join. -/
def joinSp : List String → String
  | [] => ""
  | [s] => s
  | s :: rest => s ++ " " ++ joinSp rest

/-- Model of Python '[图片]' * n string repetition. -/
def pyRepeat : Nat → String → String
  | 0, _ => ""
  | n + 1, s => s ++ pyRepeat n s

/-- Capture loop for the marker regex: consume characters other than the
closing bracket, then return the (nonempty) capture and the rest of the
input; models the group ([^\]]+) followed by the closing bracket. -/
def capLoop : List Char → List Char → Option (List Char × List Char)
  | _, [] => none
  | acc, c :: rest =>
    if c = ']' then
      if acc.isEmpty then none else some (acc.reverse, rest)
    else capLoop (c :: acc) rest

/-- Match the tail of a marker after its opening bracket: the literal
characters 图片: followed by the capture and the closing bracket. -/
def capMatch : List Char → Option (List Char × List Char)
  | '图' :: '片' :: ':' :: rest => capLoop [] rest
  | _ => none

lemma capLoop_length : ∀ (l acc cap rest : List Char),
    capLoop acc l = some (cap, rest) → rest.length < l.length := by
  intro l
  induction l with
  | nil => intro acc cap rest h; simp [capLoop] at h
  | cons c cs ih =>
    intro acc cap rest h
    by_cases hc : c = ']'
    · by_cases ha : acc.isEmpty
      · simp [capLoop, hc, ha] at h
      · simp [capLoop, hc, ha] at h
        obtain ⟨h1, h2⟩ := h
        subst h2
        simp
    · simp only [capLoop, if_neg hc] at h
      have := ih (c :: acc) cap rest h
      simp
      omega

lemma capMatch_length {l cap rest : List Char} (h : capMatch l = some (cap, rest)) :
    rest.length < l.length := by
  unfold capMatch at h
  split at h
  · rename_i rest'
    have := capLoop_length rest' [] cap rest h
    simp
    omega
  · exact absurd h (by simp)

/-- Scanner for the marker regex over the input characters: at each
position, try to match a full marker (opening bracket, 图片:, capture,
closing bracket); on success record the capture and continue after the
match, otherwise emit the character and advance one position.  Returns
(captures left to right, input with matches removed): the pair of
re.findall and re.sub with the empty replacement. -/
def scanM (s : List Char) : List (List Char) × List Char :=
  match s with
  | [] => ([], [])
  | c :: rest =>
    if c = '[' then
      match h : capMatch rest with
      | some (cap, rest2) =>
        let p := scanM rest2
        (cap :: p.1, p.2)
      | none =>
        let p := scanM rest
        (p.1, c :: p.2)
    else
      let p := scanM rest
      (p.1, c :: p.2)
termination_by s.length
decreasing_by
  · have := capMatch_length h
    simp
    omega
  · simp
  · simp

/-- Model of image_pattern.findall. -/
def findall (s : String) : List String :=
  (scanM s.data).1.map String.mk

/-- Model of image_pattern.sub with the empty replacement. -/
def subMarkers (s : String) : String :=
  String.mk (scanM s.data).2

/-- Decode one message_text into a content list, following the history
loop of inject_chat_history: extract markers, strip them from the text,
substitute the image placeholder when markers exist and no text remains,
then build resolved image parts (failed resolutions dropped) followed by
the text part when nonempty.  The resolve argument models
_path_to_base64 on the file named by a marker. -/
def decodeContent (resolve : String → Option String) (s : String) : List Part :=
  let fns := findall s
  let tp0 := pyStrip (subMarkers s)
  let tp := if fns ≠ [] ∧ tp0 = "" then "[用户发送了图片]" else tp0
  (fns.filterMap fun fn => (resolve fn).map Part.image) ++
    (if tp ≠ "" then [Part.text tp] else [])

/-- Name prefixing for user rows: when the first content element is a
text part, prepend the display name onto it; otherwise insert a new
leading text part holding just the display name and colon. -/
def prefixName (dn : String) : List Part → List Part
  | Part.text s :: rest => Part.text (dn ++ ": " ++ s) :: rest
  | l => Part.text (dn ++ ": ") :: l

/-- Decode one fetched history row into its provider message and its
plain-text-only rendering, following the body of the history loop: role
from sender_id, content from decodeContent, skip (none) when the content
list is empty, and for user rows apply the display-name prefix to both
renderings. -/
def decodeRow (resolve : String → Option String) (selfId : String) (r : Row) :
    Option (Msg × Msg) :=
  let role := if r.sender_id = selfId then "assistant" else "user"
  let fns := findall r.message_text
  let tp0 := pyStrip (subMarkers r.message_text)
  let tp := if fns ≠ [] ∧ tp0 = "" then "[用户发送了图片]" else tp0
  let content := decodeContent resolve r.message_text
  if content = [] then none
  else
    let to0 := pyStrip (pyRepeat fns.length "[图片]" ++ " " ++ tp)
    if role = "user" then
      let dn := if r.sender_name = "" then "User" else r.sender_name
      some (⟨role, Content.parts (prefixName dn content)⟩,
            ⟨role, Content.str (dn ++ ": " ++ to0)⟩)
    else
      some (⟨role, Content.parts content⟩, ⟨role, Content.str to0⟩)

/-- Coerce a content field to a parts list, as the code does with
isinstance(content, list) checks and the str(content) fallback. -/
def contentToList : Content → List Part
  | Content.str s => [Part.text s]
  | Content.parts l => l

/-- Replace the last user-role entry of a context list by f of it,
leaving everything else alone; models the scan from the end for the
entry whose role is user. -/
def modifyLastUser (f : Msg → Msg) : List Msg → List Msg
  | [] => []
  | m :: rest =>
    if rest.any (fun x => x.role == "user") then m :: modifyLastUser f rest
    else if m.role == "user" then f m :: rest
    else m :: rest

/-- Enhance the live current turn (step 4 of the algorithm): find the
last user entry of the supplied context list (no entry: no change);
when the current DB turn has markers and no residual text, replace the
entry content with the single image-only placeholder text part; then,
whenever markers exist, prepend the resolved image parts to the front of
the entry content, coercing a plain-string content to a one-element text
list first. -/
def enhanceCurrent (resolve : String → Option String) (currentText : String)
    (ctxs : List Msg) : List Msg :=
  let fns := findall currentText
  let tp := pyStrip (subMarkers currentText)
  if ctxs.any (fun x => x.role == "user") then
    modifyLastUser (fun m =>
      let c1 := if fns ≠ [] ∧ tp = "" then
          Content.parts [Part.text "[用户最新消息只发送了图片]"]
        else m.content
      if fns ≠ [] then
        let imgs := fns.filterMap fun fn => (resolve fn).map Part.image
        ⟨m.role, Content.parts (imgs ++ contentToList c1)⟩
      else ⟨m.role, c1⟩) ctxs
  else ctxs

/-- Collapse loop body: merged_contexts starts as the first entry; each
further entry with the same role as the last kept entry has its content
list appended onto the last entry's content list (with scalar contents
coerced to one-element text lists), otherwise it is kept as a new entry. -/
def mergeAux (acc : Msg) : List Msg → List Msg
  | [] => [acc]
  | c :: rest =>
    if c.role = acc.role then
      mergeAux ⟨acc.role, Content.parts (contentToList acc.content ++ contentToList c.content)⟩ rest
    else acc :: mergeAux c rest

/-- Collapse adjacent same-role runs (step 6). -/
def mergeContexts : List Msg → List Msg
  | [] => []
  | m :: rest => mergeAux m rest

/-- Whether a part is a text-type part (item.get of type equals text). -/
def isTextPart : Part → Bool
  | Part.text _ => true
  | Part.image _ => false

/-- The text of a part, with the empty-string default of item.get. -/
def partText : Part → String
  | Part.text s => s
  | Part.image _ => ""

/-- Flatten one entry (step 7): when the content is a list all of whose
items are text parts, replace it by the texts joined with single spaces
and stripped; otherwise leave the entry alone. -/
def flattenMsg (m : Msg) : Msg :=
  match m.content with
  | Content.str _ => m
  | Content.parts l =>
    if l.all isTextPart then ⟨m.role, Content.str (pyStrip (joinSp (l.map partText)))⟩
    else m

/-- Flatten every merged entry (the final for loop over merged_contexts). -/
def flattenContexts (l : List Msg) : List Msg :=
  l.map flattenMsg

/-- A raw incoming message component, as consumed by
_process_message_chain: a Plain text or an Image with its url. -/
inductive MsgComp where
  | plain (text : String)
  | image (url : String)
deriving DecidableEq

/-- Model of _process_message_chain (the Turn Normalizer): each Plain
part contributes its stripped text when nonempty; each Image part with a
nonempty url contributes the inline marker for the downloaded filename,
or the download-failure placeholder; fragments are joined with single
spaces and the result stripped.  The dl argument models _download_image. -/
def processChain (dl : String → Option String) (chain : List MsgComp) : String :=
  pyStrip (joinSp (chain.filterMap fun comp =>
    match comp with
    | MsgComp.plain t => if pyStrip t ≠ "" then some (pyStrip t) else none
    | MsgComp.image url =>
      if url ≠ "" then
        some (match dl url with
          | some fn => "[图片:" ++ fn ++ "]"
          | none => "[图片下载失败]")
      else none))

/-- Outcome of the database fetch in inject_chat_history: the row list,
or an exception raised by the cursor (the first fallible operation after
the context list is cleared). -/
inductive FetchOutcome where
  | ok (rows : List Row)
  | err
deriving DecidableEq

/-- The observable outcome of inject_chat_history: the final value of
req.contexts, and the text_only_history extra when it was set. -/
structure InjectResult where
  contexts : List Msg
  textOnly : Option (List Msg)
deriving DecidableEq

/-- Model of inject_chat_history.  Inputs: the inject_context and
max_history_messages configuration, the fetch outcome, the
framework-supplied req.contexts, the resolver for saved image files and
the bot self id.  Faithful to the source: current_turn_contexts is bound
to req.contexts itself when that list is non-empty (the Python or
operator returns the same list object), so req.contexts.clear() empties
both names; when req.contexts is empty the or yields the empty list as
well — hence after the clear current_turn_contexts is the empty list in
every case, which the definition writes directly.  An exception during
the algorithm is caught at the top level and leaves req.contexts in its
cleared state. -/
def inject_chat_history (injectCtx : Bool) (maxHistory : Int) (fetch : FetchOutcome)
    (reqContexts : List Msg) (resolve : String → Option String) (selfId : String) :
    InjectResult :=
  if injectCtx = false then ⟨reqContexts, none⟩
  else if maxHistory ≤ 0 then ⟨reqContexts, none⟩
  else
    let current_turn_contexts : List Msg := []
    match fetch with
    | FetchOutcome.err => ⟨[], none⟩
    | FetchOutcome.ok [] => ⟨current_turn_contexts, none⟩
    | FetchOutcome.ok (currentRow :: rest) =>
      let history_rows := rest.reverse
      let decoded := history_rows.filterMap (decodeRow resolve selfId)
      let history_contexts := decoded.map Prod.fst
      let text_only := decoded.map Prod.snd
      let cur := enhanceCurrent resolve currentRow.message_text current_turn_contexts
      let final := history_contexts ++ cur
      if final = [] then ⟨[], some text_only⟩
      else ⟨flattenContexts (mergeContexts final), some text_only⟩

/-- A stored chat_logs row with its rowid (insertion order) and
timestamp, for the fetch-ordering model. -/
structure DbRow where
  id : Nat
  session_id : String
  sender_id : String
  sender_name : String
  message_text : String
  timestamp : Int
deriving DecidableEq

/-- Model of the fetch query (SELECT ... WHERE session_id matches ORDER
BY timestamp DESC LIMIT n): the result is the n-prefix of some
permutation of the session's rows that is sorted by non-increasing
timestamp.  SQL leaves the relative order of equal-timestamp rows
unspecified, which the existential permutation captures. -/
def IsMostRecentResult (db : List DbRow) (sid : String) (n : Nat) (res : List DbRow) : Prop :=
  ∃ p : List DbRow, p.Perm (db.filter fun r => r.session_id == sid)
    ∧ List.Sorted (fun a b => b.timestamp ≤ a.timestamp) p
    ∧ res = p.take n

/-- A resolver mapping the stored filename to a fixed data URI, used in
concrete evaluations. -/
def resolveA : String → Option String :=
  fun fn => if fn = "a.png" then some "URI" else none

/-- Two stored rows of one session sharing a timestamp, the second
inserted later. -/
def rowA : DbRow := ⟨1, "s", "u1", "A", "a", 100⟩

/-- The later-inserted row of the equal-timestamp pair. -/
def rowB : DbRow := ⟨2, "s", "u2", "B", "b", 100⟩

lemma scanM_nil : scanM [] = ([], []) := by
  simp [scanM]

lemma scanM_cons_not_lb {c : Char} (h : ¬ c = '[') (rest : List Char) :
    scanM (c :: rest) = ((scanM rest).1, c :: (scanM rest).2) := by
  rw [scanM]
  simp [h]

lemma scanM_cons_cap {rest cap rest2 : List Char} (h : capMatch rest = some (cap, rest2)) :
    scanM ('[' :: rest) = (cap :: (scanM rest2).1, (scanM rest2).2) := by
  rw [scanM]
  split
  case isFalse hf => exact (hf rfl).elim
  case isTrue =>
    split
    · rename_i cap2 rest3 heq
      rw [h] at heq
      injection heq with h1
      injection h1 with h2 h3
      subst h2
      subst h3
      rfl
    · rename_i heq
      rw [h] at heq
      exact absurd heq (by simp)

lemma scanM_cons_nocap {rest : List Char} (h : capMatch rest = none) :
    scanM ('[' :: rest) = ((scanM rest).1, '[' :: (scanM rest).2) := by
  rw [scanM]
  split
  case isFalse hf => exact (hf rfl).elim
  case isTrue =>
    split
    · rename_i cap2 rest3 heq
      rw [h] at heq
      exact absurd heq (by simp)
    · rfl

lemma capLoop_spec : ∀ (f acc tail : List Char), (∀ ch ∈ f, ch ≠ ']') →
    (acc ≠ [] ∨ f ≠ []) →
    capLoop acc (f ++ ']' :: tail) = some (acc.reverse ++ f, tail) := by
  intro f
  induction f with
  | nil =>
    intro acc tail _ hne
    have ha : acc ≠ [] := by
      rcases hne with h | h
      · exact h
      · exact absurd rfl h
    simp [capLoop, ha]
  | cons c f' ih =>
    intro acc tail hbr _
    have hc : ¬ c = ']' := hbr c (by simp)
    simp only [List.cons_append, capLoop, if_neg hc, List.append_eq]
    rw [ih (c :: acc) tail (fun ch hm => hbr ch (by simp [hm])) (Or.inl (by simp))]
    simp

lemma scanM_marker {f tail : List Char} (hne : f ≠ []) (hbr : ∀ ch ∈ f, ch ≠ ']') :
    scanM ('[' :: '图' :: '片' :: ':' :: (f ++ ']' :: tail))
      = (f :: (scanM tail).1, (scanM tail).2) := by
  have hcap : capMatch ('图' :: '片' :: ':' :: (f ++ ']' :: tail)) = some (f, tail) := by
    show capLoop [] (f ++ ']' :: tail) = some (f, tail)
    have := capLoop_spec f [] tail hbr (Or.inr hne)
    simpa using this
  exact scanM_cons_cap hcap

lemma scanM_no_lb_prefix : ∀ (pre t : List Char), (∀ ch ∈ pre, ch ≠ '[') →
    scanM (pre ++ t) = ((scanM t).1, pre ++ (scanM t).2) := by
  intro pre
  induction pre with
  | nil => intro t _; simp
  | cons c p ih =>
    intro t h
    have hc : ¬ c = '[' := h c (by simp)
    rw [List.cons_append, scanM_cons_not_lb hc, ih t (fun ch hm => h ch (by simp [hm]))]
    rfl

lemma scanM_no_caps_aux : ∀ (n : Nat) (l : List Char), l.length ≤ n →
    (scanM l).1 = [] → (scanM l).2 = l := by
  intro n
  induction n with
  | zero =>
    intro l hlen _
    have : l = [] := by
      cases l with
      | nil => rfl
      | cons c rest => simp at hlen
    subst this
    simp [scanM_nil]
  | succ n ih =>
    intro l hlen hfst
    cases l with
    | nil => simp [scanM_nil]
    | cons c rest =>
      by_cases hc : c = '['
      · subst hc
        cases hcm : capMatch rest with
        | some pr =>
          obtain ⟨cap, rest2⟩ := pr
          rw [scanM_cons_cap hcm] at hfst
          simp at hfst
        | none =>
          rw [scanM_cons_nocap hcm] at hfst ⊢
          simp only at hfst ⊢
          rw [ih rest (by simp at hlen; omega) hfst]
      · rw [scanM_cons_not_lb hc] at hfst ⊢
        simp only at hfst ⊢
        rw [ih rest (by simp at hlen; omega) hfst]

lemma scanM_no_caps (l : List Char) (h : (scanM l).1 = []) : (scanM l).2 = l :=
  scanM_no_caps_aux l.length l le_rfl h

lemma findall_nil_subMarkers {s : String} (h : findall s = []) : subMarkers s = s := by
  unfold findall at h
  unfold subMarkers
  have h1 : (scanM s.data).1 = [] := by
    cases hm : (scanM s.data).1 with
    | nil => rfl
    | cons a t => rw [hm] at h; simp at h
  rw [scanM_no_caps s.data h1]

lemma dropWhile_cons_false {p : Char → Bool} {c : Char} {l : List Char}
    (h : p c = false) : List.dropWhile p (c :: l) = c :: l := by
  simp [List.dropWhile, h]

lemma stripChars_no_ws {c d : Char} (l : List Char)
    (hc : isPySpace c = false) (hd : isPySpace d = false) :
    stripChars (c :: (l ++ [d])) = c :: (l ++ [d]) := by
  unfold stripChars
  rw [dropWhile_cons_false hc]
  rw [show (c :: (l ++ [d])).reverse = d :: (c :: l).reverse from by simp]
  rw [dropWhile_cons_false hd]
  simp

lemma decodeContent_ne_nil (resolve : String → Option String) (s : String)
    (h : pyStrip s ≠ "") : decodeContent resolve s ≠ [] := by
  unfold decodeContent
  by_cases hf : findall s = []
  · have hsub : subMarkers s = s := findall_nil_subMarkers hf
    simp only [hf, hsub]
    simp [h]
  · by_cases ht : pyStrip (subMarkers s) = ""
    · simp [hf, ht]
    · simp [hf, ht]

lemma mergeAux_chain (rest : List Msg) : ∀ (acc : Msg),
    List.Chain' (fun a b => a.role ≠ b.role) (mergeAux acc rest)
    ∧ (mergeAux acc rest).head?.map Msg.role = some acc.role := by
  induction rest with
  | nil => intro acc; simp [mergeAux]
  | cons c rest ih =>
    intro acc
    by_cases hr : c.role = acc.role
    · simp only [mergeAux, if_pos hr]
      exact ih _
    · simp only [mergeAux, if_neg hr]
      obtain ⟨ihc, ihh⟩ := ih c
      constructor
      · rw [List.chain'_cons']
        refine ⟨?_, ihc⟩
        intro y hy
        cases hm : (mergeAux c rest).head? with
        | none => rw [hm] at hy; simp at hy
        | some z =>
          rw [hm] at hy ihh
          simp at hy ihh
          subst hy
          intro hcon
          exact hr (by rw [← ihh, ← hcon])
      · simp

lemma scanM_all_not_lb (l : List Char) (h : ∀ ch ∈ l, ch ≠ '[') :
    scanM l = ([], l) := by
  have : l = l ++ [] := by simp
  rw [this, scanM_no_lb_prefix l [] h, scanM_nil]

lemma scanM_a_png : scanM ("[图片:a.png]").data = ([("a.png").data], []) := by
  have hshape : ("[图片:a.png]").data
      = '[' :: '图' :: '片' :: ':' :: (("a.png").data ++ ']' :: []) := by decide
  rw [hshape, scanM_marker (by decide) (by decide), scanM_nil]

lemma scanM_a_png_hi : scanM ("[图片:a.png] hi").data = ([("a.png").data], (" hi").data) := by
  have hshape : ("[图片:a.png] hi").data
      = '[' :: '图' :: '片' :: ':' :: (("a.png").data ++ ']' :: (" hi").data) := by decide
  rw [hshape, scanM_marker (by decide) (by decide)]
  rw [scanM_all_not_lb (" hi").data (by decide)]

lemma findall_a_png : findall "[图片:a.png]" = ["a.png"] := by
  unfold findall
  rw [scanM_a_png]
  rfl

lemma subMarkers_a_png : subMarkers "[图片:a.png]" = "" := by
  unfold subMarkers
  rw [scanM_a_png]

lemma findall_a_png_hi : findall "[图片:a.png] hi" = ["a.png"] := by
  unfold findall
  rw [scanM_a_png_hi]
  rfl

lemma subMarkers_a_png_hi : subMarkers "[图片:a.png] hi" = " hi" := by
  unfold subMarkers
  rw [scanM_a_png_hi]

lemma flattenMsg_role (m : Msg) : (flattenMsg m).role = m.role := by
  unfold flattenMsg
  cases m with
  | mk role content =>
    cases content with
    | str s => rfl
    | parts l =>
      by_cases h : l.all isTextPart
      · simp [h]
      · simp [h]

/-- Claim C1: with an empty fetch window and a non-empty framework context the
code returns an empty provider context, not the original one: line 139
clears req.contexts in place and current_turn_contexts aliases it. -/
theorem c1_empty_window_drops_context :
    (inject_chat_history true 20 (FetchOutcome.ok []) [⟨"user", Content.str "hi"⟩]
        (fun _ => none) "bot").contexts = []
    ∧ ([⟨"user", Content.str "hi"⟩] : List Msg) ≠ [] :=
  ⟨rfl, by decide⟩

/-- Claim C2 counterexample: an exception during the algorithm (the fetch) does
not leave the provider context equal to the framework-supplied input. -/
theorem c2_exception_counterexample :
    (inject_chat_history true 20 FetchOutcome.err [⟨"user", Content.str "hi"⟩]
        (fun _ => none) "bot").contexts ≠ [⟨"user", Content.str "hi"⟩] := by
  decide

/-- Claim C2 amended: an exception during the algorithm is caught and the
request proceeds with the context state at the point of failure, which is
the cleared (empty) context list, since the clear precedes the fetch. -/
theorem c2_amended_fail_open (mh : Int) (ctxs : List Msg)
    (resolve : String → Option String) (selfId : String) (h : 0 < mh) :
    inject_chat_history true mh FetchOutcome.err ctxs resolve selfId
      = ⟨[], none⟩ := by
  unfold inject_chat_history
  have h2 : ¬ (mh ≤ 0) := by omega
  simp [h2]

/-- Claim C2 amended witness at a concrete input. -/
theorem c2_amended_fail_open_witness :
    inject_chat_history true 20 FetchOutcome.err [⟨"user", Content.str "hi"⟩]
      (fun _ => none) "bot" = ⟨[], none⟩ :=
  c2_amended_fail_open 20 [⟨"user", Content.str "hi"⟩] (fun _ => none) "bot" (by decide)

/-- Claim C9: a non-positive max_history_messages disables injection before the
context list is touched: req.contexts is returned unmodified and no extra
is set, for every fetch outcome and configuration. -/
theorem c9_disabled_injection (ic : Bool) (mh : Int) (fetch : FetchOutcome)
    (ctxs : List Msg) (resolve : String → Option String) (selfId : String)
    (h : mh ≤ 0) :
    inject_chat_history ic mh fetch ctxs resolve selfId = ⟨ctxs, none⟩ := by
  unfold inject_chat_history
  cases ic
  · simp
  · simp [h]

/-- Claim C9 witness at a concrete input. -/
theorem c9_disabled_injection_witness :
    inject_chat_history true 0 (FetchOutcome.ok [⟨"u1", "Alice", "hi"⟩])
      [⟨"user", Content.str "hi"⟩] (fun _ => none) "bot"
      = ⟨[⟨"user", Content.str "hi"⟩], none⟩ :=
  c9_disabled_injection true 0 (FetchOutcome.ok [⟨"u1", "Alice", "hi"⟩])
    [⟨"user", Content.str "hi"⟩] (fun _ => none) "bot" (by decide)

/-- Claim C4: after collapsing (and the final flatten pass that writes the
list into the request) no two adjacent entries share a role, and three
turns with roles user, user, assistant collapse to two entries whose
first content is the concatenation of the two user content lists. -/
theorem c4_collapse_invariant :
    (∀ l : List Msg,
      List.Chain' (fun a b => a.role ≠ b.role) (flattenContexts (mergeContexts l)))
    ∧ (∀ c1 c2 : List Part, ∀ c3 : Content,
      mergeContexts [⟨"user", Content.parts c1⟩, ⟨"user", Content.parts c2⟩,
          ⟨"assistant", c3⟩]
        = [⟨"user", Content.parts (c1 ++ c2)⟩, ⟨"assistant", c3⟩]) := by
  constructor
  · intro l
    unfold flattenContexts
    rw [List.chain'_map]
    have hch : List.Chain' (fun a b => a.role ≠ b.role) (mergeContexts l) := by
      cases l with
      | nil => simp [mergeContexts]
      | cons m rest => exact (mergeAux_chain rest m).1
    apply List.Chain'.imp ?_ hch
    intro a b hab
    simpa [flattenMsg_role] using hab
  · intro c1 c2 c3
    rfl

/-- Claim C8: a merged entry whose content list is all text parts is replaced
by the space-joined, stripped string; an entry containing a non-text
(image) part is left as a content list; the final pass maps this over
every merged entry. -/
theorem c8_flatten_pure_text (role : String) (l : List Part) :
    (l.all isTextPart = true →
      flattenMsg ⟨role, Content.parts l⟩
        = ⟨role, Content.str (pyStrip (joinSp (l.map partText)))⟩)
    ∧ (∀ p, p ∈ l → isTextPart p = false →
      flattenMsg ⟨role, Content.parts l⟩ = ⟨role, Content.parts l⟩)
    ∧ (∀ L : List Msg, flattenContexts L = L.map flattenMsg) := by
  refine ⟨?_, ?_, fun L => rfl⟩
  · intro h
    simp [flattenMsg, h]
  · intro p hp hni
    have hall : ¬ l.all isTextPart = true := by
      intro hall
      rw [List.all_eq_true] at hall
      have := hall p hp
      rw [hni] at this
      cases this
    simp [flattenMsg, hall]

/-- Claim C8 witness at concrete inputs. -/
theorem c8_flatten_pure_text_witness :
    flattenMsg ⟨"user", Content.parts [Part.text "a", Part.text "b"]⟩
      = ⟨"user", Content.str "a b"⟩
    ∧ flattenMsg ⟨"user", Content.parts [Part.image "u", Part.text "t"]⟩
      = ⟨"user", Content.parts [Part.image "u", Part.text "t"]⟩ := by
  constructor
  · have h := (c8_flatten_pure_text "user" [Part.text "a", Part.text "b"]).1 (by decide)
    rw [h]
    decide
  · exact (c8_flatten_pure_text "user" [Part.image "u", Part.text "t"]).2.1
      (Part.image "u") (by decide) (by decide)

lemma decodeContent_a_png_hi :
    decodeContent resolveA "[图片:a.png] hi" = [Part.image "URI", Part.text "hi"] := by
  simp only [decodeContent, findall_a_png_hi, subMarkers_a_png_hi]
  decide

lemma decodeRow_a_png_hi :
    decodeRow resolveA "bot" ⟨"u1", "Alice", "[图片:a.png] hi"⟩
      = some (⟨"user", Content.parts
            [Part.text "Alice: ", Part.image "URI", Part.text "hi"]⟩,
          ⟨"user", Content.str "Alice: [图片] hi"⟩) := by
  simp only [decodeRow, decodeContent, findall_a_png_hi, subMarkers_a_png_hi]
  decide

/-- Claim C3: with a non-empty framework context and an image-only current DB
turn the whole request ends with an empty context list (the enhancement
step operates on the cleared, aliased current_turn_contexts and thus
never sees a user entry), while the enhancement function itself, applied
to the framework context the comments intend it to receive, would have
produced the placeholder-and-image entry. -/
theorem c3_enhancement_unreachable :
    inject_chat_history true 20 (FetchOutcome.ok [⟨"u1", "Alice", "[图片:a.png]"⟩])
        [⟨"user", Content.str "hi"⟩] resolveA "bot"
      = ⟨[], some []⟩
    ∧ enhanceCurrent resolveA "[图片:a.png]" [⟨"user", Content.str "hi"⟩]
      = [⟨"user", Content.parts [Part.image "URI",
          Part.text "[用户最新消息只发送了图片]"]⟩] := by
  constructor
  · rfl
  · simp only [enhanceCurrent, modifyLastUser, findall_a_png, subMarkers_a_png]
    decide

/-- Claim C5 counterexample: a user history row holding one resolving image and
the text hi decodes with a freshly inserted leading name part, leaving
the existing text part unprefixed — not with the name prefixed onto the
first text part as the claim states. -/
theorem c5_name_prefix_counterexample :
    decodeRow resolveA "bot" ⟨"u1", "Alice", "[图片:a.png] hi"⟩
      = some (⟨"user", Content.parts
            [Part.text "Alice: ", Part.image "URI", Part.text "hi"]⟩,
          ⟨"user", Content.str "Alice: [图片] hi"⟩)
    ∧ (decodeRow resolveA "bot" ⟨"u1", "Alice", "[图片:a.png] hi"⟩).map
          (fun pr => pr.1.content)
        ≠ some (Content.parts [Part.image "URI", Part.text "Alice: hi"]) := by
  refine ⟨decodeRow_a_png_hi, ?_⟩
  rw [decodeRow_a_png_hi]
  decide

/-- Claim C5 amended: the display-name prefix is written onto the first content
element exactly when that element is a text part; when the decoded
content begins with an image part a new leading text part holding just
the name and colon is inserted, even when a text part occurs later. -/
theorem c5_name_prefix_amended :
    (∀ dn s rest, prefixName dn (Part.text s :: rest)
        = Part.text (dn ++ ": " ++ s) :: rest)
    ∧ (∀ dn u rest, prefixName dn (Part.image u :: rest)
        = Part.text (dn ++ ": ") :: Part.image u :: rest) :=
  ⟨fun _ _ _ => rfl, fun _ _ _ => rfl⟩

lemma string_data_ext {s t : String} (h : s.data = t.data) : s = t := by
  cases s
  cases t
  simp only at h
  rw [h]

/-- Claim C10: a fetched row whose stored text is non-empty after stripping
always decodes to a non-empty content list, so the continue branch of the
history loop never fires for persisted rows; in particular a marker-only
row decodes to the image placeholder text part even when every image
fails to resolve. -/
theorem c10_skip_unreachable (resolve : String → Option String) (selfId : String)
    (r : Row) (h : pyStrip r.message_text ≠ "") :
    decodeRow resolve selfId r ≠ none
    ∧ (findall r.message_text ≠ [] → pyStrip (subMarkers r.message_text) = "" →
        (∀ fn ∈ findall r.message_text, resolve fn = none) →
        decodeContent resolve r.message_text = [Part.text "[用户发送了图片]"]) := by
  constructor
  · have hc := decodeContent_ne_nil resolve r.message_text h
    unfold decodeRow
    simp only [if_neg hc]
    split <;> simp
  · intro hf ht hres
    have hnil : (findall r.message_text).filterMap
        (fun fn => (resolve fn).map Part.image) = [] := by
      rw [List.filterMap_eq_nil_iff]
      intro fn hfn
      rw [hres fn hfn]
      rfl
    simp only [decodeContent, hf, ht]
    rw [hnil]
    simp [hf]

/-- Claim C10 witness at a concrete marker-only row with no resolving file. -/
theorem c10_skip_unreachable_witness :
    decodeRow (fun _ => none) "bot" ⟨"u1", "Alice", "[图片:a.png]"⟩ ≠ none
    ∧ decodeContent (fun _ => none) "[图片:a.png]" = [Part.text "[用户发送了图片]"] := by
  have h := c10_skip_unreachable (fun _ => none) "bot" ⟨"u1", "Alice", "[图片:a.png]"⟩
    (by decide)
  refine ⟨h.1, h.2 ?_ ?_ ?_⟩
  · rw [findall_a_png]
    decide
  · rw [subMarkers_a_png]
    decide
  · rw [findall_a_png]
    intro fn hfn
    rfl

/-- Claim C7 counterexample: with two session rows sharing a timestamp, the
query ordering (timestamp DESC only) admits a result whose first row is
the earlier-inserted one, so the row split off as the current DB turn is
not always the most recently inserted row. -/
theorem c7_fetch_tie_counterexample :
    IsMostRecentResult [rowA, rowB] "s" 21 [rowA, rowB]
    ∧ ([rowA, rowB].head? = some rowA)
    ∧ rowA.id < rowB.id
    ∧ rowA ≠ rowB := by
  refine ⟨⟨[rowA, rowB], ?_, ?_, ?_⟩, rfl, by decide, by decide⟩
  · rw [show ([rowA, rowB].filter fun r => r.session_id == "s") = [rowA, rowB]
      from by decide]
  · simp [List.sorted_cons, rowA, rowB]
  · rfl

/-- Claim C7 amended: the fetch returns at most the limit, only session rows,
sorted by non-increasing timestamp; equal-timestamp rows come in an
unspecified order, and the head (the row split off as the current DB
turn) is guaranteed to be a given row only when that row's timestamp is
strictly larger than every other session row's. -/
theorem c7_fetch_window_amended (db : List DbRow) (sid : String) (n : Nat)
    (res : List DbRow) (h : IsMostRecentResult db sid n res) :
    res.length ≤ n
    ∧ (∀ r ∈ res, r.session_id = sid)
    ∧ List.Sorted (fun a b => b.timestamp ≤ a.timestamp) res
    ∧ (∀ r0 ∈ db.filter (fun r => r.session_id == sid),
        (∀ r ∈ db.filter (fun r => r.session_id == sid), r ≠ r0 →
          r.timestamp < r0.timestamp) →
        0 < n → res.head? = some r0) := by
  obtain ⟨p, hperm, hsort, hres⟩ := h
  subst hres
  refine ⟨?_, ?_, ?_, ?_⟩
  · simp [List.length_take_le]
  · intro r hr
    have hrp : r ∈ p := (List.take_sublist n p).subset hr
    have hrf := hperm.mem_iff.mp hrp
    rw [List.mem_filter] at hrf
    exact eq_of_beq hrf.2
  · exact List.Pairwise.sublist (List.take_sublist n p) hsort
  · intro r0 hr0 hmax hn
    have hr0p : r0 ∈ p := hperm.mem_iff.mpr hr0
    cases p with
    | nil => simp at hr0p
    | cons h0 t =>
      have hh0 : h0 = r0 := by
        by_contra hne
        have hh0f : h0 ∈ db.filter (fun r => r.session_id == sid) :=
          hperm.mem_iff.mp (List.mem_cons_self h0 t)
        have hlt : h0.timestamp < r0.timestamp := hmax h0 hh0f hne
        have hr0t : r0 ∈ t := by
          rcases List.mem_cons.mp hr0p with he | ht2
          · exact absurd he.symm hne
          · exact ht2
        have hle : r0.timestamp ≤ h0.timestamp :=
          (List.sorted_cons.mp hsort).1 r0 hr0t
        omega
      subst hh0
      cases n with
      | zero => omega
      | succ m => simp

/-- Claim C7 amended witness at a concrete one-row database. -/
theorem c7_fetch_window_amended_witness :
    ([rowA] : List DbRow).length ≤ 21
    ∧ rowA.session_id = "s"
    ∧ List.Sorted (fun a b : DbRow => b.timestamp ≤ a.timestamp) [rowA]
    ∧ ([rowA] : List DbRow).head? = some rowA := by
  have h := c7_fetch_window_amended [rowA] "s" 21 [rowA]
    ⟨[rowA], by rw [show (([rowA] : List DbRow).filter fun r => r.session_id == "s")
        = [rowA] from by decide], by simp [List.sorted_cons], rfl⟩
  refine ⟨h.1, h.2.1 rowA (by decide), h.2.2.1, ?_⟩
  refine h.2.2.2 rowA ?_ ?_ (by decide)
  · rw [show (([rowA] : List DbRow).filter fun r => r.session_id == "s")
      = [rowA] from by decide]
    decide
  · rw [show (([rowA] : List DbRow).filter fun r => r.session_id == "s")
      = [rowA] from by decide]
    decide

lemma data_ne_nil_of_ne_empty {f : String} (h : f ≠ "") : f.data ≠ [] := by
  intro hd
  exact h (string_data_ext (by rw [hd]))

lemma scanM_hello_marker (f : String) (hne : f ≠ "") (hbr : ∀ c ∈ f.data, c ≠ ']') :
    scanM ("hello [图片:" ++ f ++ "]").data = ([f.data], ("hello ").data) := by
  have hdata : ("hello [图片:" ++ f ++ "]").data
      = ("hello ").data ++ ('[' :: '图' :: '片' :: ':' :: (f.data ++ ']' :: [])) := by
    rw [String.data_append, String.data_append]
    rw [show ("hello [图片:").data = ("hello ").data ++ ['[', '图', '片', ':'] from by decide]
    rw [show ("]").data = [']'] from by decide]
    simp
  rw [hdata, scanM_no_lb_prefix _ _ (by decide),
    scanM_marker (data_ne_nil_of_ne_empty hne) hbr]
  simp [scanM_nil]

lemma findall_hello_marker (f : String) (hne : f ≠ "") (hbr : ∀ c ∈ f.data, c ≠ ']') :
    findall ("hello [图片:" ++ f ++ "]") = [f] := by
  unfold findall
  rw [scanM_hello_marker f hne hbr]
  rfl

lemma subMarkers_hello_marker (f : String) (hne : f ≠ "") (hbr : ∀ c ∈ f.data, c ≠ ']') :
    subMarkers ("hello [图片:" ++ f ++ "]") = "hello " := by
  unfold subMarkers
  rw [scanM_hello_marker f hne hbr]

lemma pyStrip_hello_marker (f : String) :
    pyStrip ("hello" ++ " " ++ ("[图片:" ++ f ++ "]")) = "hello [图片:" ++ f ++ "]" := by
  have hdata2 : ("hello" ++ " " ++ ("[图片:" ++ f ++ "]")).data
      = 'h' :: ((("ello [图片:").data ++ f.data) ++ [']']) := by
    simp only [String.data_append]
    simp
  have hdata3 : ("hello [图片:" ++ f ++ "]").data
      = 'h' :: ((("ello [图片:").data ++ f.data) ++ [']']) := by
    simp only [String.data_append]
    simp
  unfold pyStrip
  rw [hdata2, stripChars_no_ws _ (by decide) (by decide)]
  exact string_data_ext (by rw [hdata3])

/-- Claim C6: normalizing a turn of the text hello followed by an image whose
download saved the file under a marker-safe name yields the text with
the inline marker appended; decoding that stored text yields one image
part and the text part hello when the file still resolves, and just the
text part when it does not. -/
theorem c6_round_trip (dl resolve : String → Option String) (url f uri : String)
    (hdl : dl url = some f) (hurl : url ≠ "") (hne : f ≠ "")
    (hbr : ∀ c ∈ f.data, c ≠ ']') :
    processChain dl [MsgComp.plain "hello", MsgComp.image url]
      = "hello [图片:" ++ f ++ "]"
    ∧ (resolve f = some uri →
        decodeContent resolve ("hello [图片:" ++ f ++ "]")
          = [Part.image uri, Part.text "hello"])
    ∧ (resolve f = none →
        decodeContent resolve ("hello [图片:" ++ f ++ "]")
          = [Part.text "hello"]) := by
  refine ⟨?_, ?_, ?_⟩
  · unfold processChain
    simp only [List.filterMap]
    rw [if_pos hurl, hdl]
    rw [show pyStrip "hello" = "hello" from by decide]
    rw [if_pos (show ("hello" : String) ≠ "" from by decide)]
    show pyStrip ("hello" ++ " " ++ ("[图片:" ++ f ++ "]")) = "hello [图片:" ++ f ++ "]"
    exact pyStrip_hello_marker f
  · intro hres
    simp only [decodeContent, findall_hello_marker f hne hbr,
      subMarkers_hello_marker f hne hbr]
    simp [hres]
    decide
  · intro hres
    simp only [decodeContent, findall_hello_marker f hne hbr,
      subMarkers_hello_marker f hne hbr]
    simp [hres]
    decide

/-- Claim C6 witness at a concrete chain, filename and resolvers. -/
theorem c6_round_trip_witness :
    processChain (fun u => if u = "http://x/a.png" then some "a.png" else none)
        [MsgComp.plain "hello", MsgComp.image "http://x/a.png"]
      = "hello [图片:" ++ "a.png" ++ "]"
    ∧ decodeContent resolveA ("hello [图片:" ++ "a.png" ++ "]")
        = [Part.image "URI", Part.text "hello"]
    ∧ decodeContent (fun _ => none) ("hello [图片:" ++ "a.png" ++ "]")
        = [Part.text "hello"] := by
  refine ⟨?_, ?_, ?_⟩
  · exact (c6_round_trip (fun u => if u = "http://x/a.png" then some "a.png" else none)
      resolveA "http://x/a.png" "a.png" "URI" (by decide) (by decide) (by decide)
      (by decide)).1
  · exact (c6_round_trip (fun u => if u = "http://x/a.png" then some "a.png" else none)
      resolveA "http://x/a.png" "a.png" "URI" (by decide) (by decide) (by decide)
      (by decide)).2.1 (by decide)
  · exact (c6_round_trip (fun u => if u = "http://x/a.png" then some "a.png" else none)
      (fun _ => none) "http://x/a.png" "a.png" "URI" (by decide) (by decide) (by decide)
      (by decide)).2.2 (by decide)

end PersistentChat
